import Mathlib

/-!
Shallow embedding of the `economicCalendar` repository.

This file embeds the two scripts of the repository,
`scripts/fetch_earnings_investing.py` and `scripts/embalses_dict.py`,
and proves the properties claimed about them.

Modelling conventions:

* Python `str` is modelled as `Str := List Char` (code points).  `lower`,
  `isdigit` and whitespace tests are modelled on the fragment handled by
  `Char.toLower`, `Char.isDigit` and `Char.isWhitespace`; every string the
  scripts themselves build is inside that fragment.
* `pandas.DataFrame`s carrying the two columns `Día`/`Evento2` are modelled
  as a column list plus a row list of string pairs; `DataFrame.empty`,
  `drop_duplicates` (keep the first occurrence) and two-column
  `sort_values` are modelled explicitly.
* Python floats are modelled as exact rationals `ℚ`; the embalses script
  only multiplies a parsed value by 1000, and the claims under study are
  about which textual normalisation and which multiplication is applied.
* HTTP fetching and the `BeautifulSoup`/`lxml` HTML tree traversal are
  external libraries; they are abstracted as function parameters that hand
  the scripts the already-extracted structures the code reads off the tree.
-/

/-- Python strings, as lists of code points. -/
abbrev Str := List Char

/-! ## Generic string helpers (Python `strip`, `split`, `join`) -/

/-- Remove leading whitespace (the left half of Python `str.strip`). -/
def stripLeft : Str → Str
  | [] => []
  | c :: cs => if c.isWhitespace then stripLeft cs else c :: cs

/-- Remove trailing whitespace (the right half of Python `str.strip`). -/
def stripRight (s : Str) : Str := (stripLeft s.reverse).reverse

/-- Python `str.strip()`. -/
def strip (s : Str) : Str := stripLeft (stripRight s)

/-- Python `str.split()` with no argument: split on whitespace runs,
producing no empty tokens.  (Structural one-character-lookahead form, so
that it evaluates inside the kernel.) -/
def splitWS : Str → List Str
  | [] => []
  | [c] => if c.isWhitespace then [] else [[c]]
  | c :: d :: cs =>
    if c.isWhitespace then splitWS (d :: cs)
    else
      if d.isWhitespace then [c] :: splitWS (d :: cs)
      else
        match splitWS (d :: cs) with
        | t :: ts => (c :: t) :: ts
        | [] => [[c]]

/-- Python `" ".join`. -/
def joinSp : List Str → Str
  | [] => []
  | [t] => t
  | t :: t2 :: ts => t ++ ' ' :: joinSp (t2 :: ts)

/-- Python `"/".join`. -/
def joinSlash : List Str → Str
  | [] => []
  | [t] => t
  | t :: t2 :: ts => t ++ '/' :: joinSlash (t2 :: ts)

/-- `pandas.DataFrame.drop_duplicates` / first-occurrence deduplication:
keep each element's first occurrence, dropping its later copies. -/
def dedupKeep {α : Type} [DecidableEq α] : List α → List α
  | [] => []
  | x :: xs => x :: (dedupKeep xs).filter (fun y => ! decide (y = x))

/-! ## String ordering (Python `<` on `str`, used by `sorted` and
`sort_values`): lexicographic comparison by code point. -/

/-- Python string `<`: lexicographic by code point. -/
def strLtb : Str → Str → Bool
  | [], [] => false
  | [], _ :: _ => true
  | _ :: _, [] => false
  | a :: as, b :: bs => if a < b then true else if b < a then false else strLtb as bs

/-- Python string `<=`. -/
def strLeb (a b : Str) : Bool := strLtb a b || decide (a = b)

/-- Row order used by `sort_values(["Día", "Evento2"])`: lexicographic on
the pair of column values. -/
def rowLE (a b : Str × Str) : Prop :=
  strLtb a.1 b.1 = true ∨ (a.1 = b.1 ∧ strLeb a.2 b.2 = true)

instance : DecidableRel rowLE := fun _ _ => inferInstanceAs (Decidable (_ ∨ _))

/-- Python `sorted` on strings. -/
def sortStr (l : List Str) : List Str :=
  List.insertionSort (fun a b => strLeb a b = true) l

/-- `sort_values(["Día", "Evento2"])` on rows. -/
def sortRows (l : List (Str × Str)) : List (Str × Str) := List.insertionSort rowLE l

/-! ## `fetch_earnings_investing.py`: stopwords (source lines 27-37) -/

/-- Source `stopwords_es` (lines 27-31). -/
def stopwords_es : List Str :=
  [("de").data, ("del").data, ("la").data, ("las").data, ("el").data, ("los").data,
   ("y").data, ("a").data, ("en").data, ("que").data,
   ("un").data, ("una").data, ("por").data, ("con").data, ("para").data,
   ("se").data, ("al").data, ("lo").data, ("su").data, ("tras").data,
   ("pero").data, ("son").data, ("etc").data]

/-- Python `str.lower()` (ASCII fragment, see the header). -/
def lowerStr (s : Str) : Str := s.map Char.toLower

/-- Source `remove_stopwords_from_event` (lines 33-37): split on whitespace,
drop tokens whose lowercase form is a stopword, rejoin with single spaces. -/
def remove_stopwords_from_event (text : Str) : Str :=
  joinSp ((splitWS text).filter (fun t => ! decide (lowerStr t ∈ stopwords_es)))

/-! ## `fetch_earnings_investing.py`: Spanish dates (source lines 40-74) -/

/-- Source `MONTHS_ES` (lines 40-44). -/
def MONTHS_ES : List (Str × Nat) :=
  [(("enero").data, 1), (("febrero").data, 2), (("marzo").data, 3), (("abril").data, 4),
   (("mayo").data, 5), (("junio").data, 6), (("julio").data, 7), (("agosto").data, 8),
   (("septiembre").data, 9), (("setiembre").data, 9), (("octubre").data, 10),
   (("noviembre").data, 11), (("diciembre").data, 12)]

/-- Python `int` on a string of decimal digits. -/
def natOfDigits (l : Str) : Nat := l.foldl (fun a c => a * 10 + (c.toNat - 48)) 0

/-- Python `str.isdigit()` (ASCII digits; see the header). -/
def isDigitsTok (t : Str) : Bool := ! t.isEmpty && t.all Char.isDigit

/-- The first loop of `parse_spanish_date` (lines 58-61): the first all-digit
token, as a number. -/
def firstDigitTok (ps : List Str) : Option Nat :=
  match ps.find? isDigitsTok with
  | some t => some (natOfDigits t)
  | none => none

/-- The second loop of `parse_spanish_date` (lines 63-66): the first token
that is a key of `MONTHS_ES`, mapped through the table. -/
def firstMonthTok (ps : List Str) : Option Nat :=
  ps.findSome? (fun p => MONTHS_ES.lookup p)

/-- Gregorian leap year, as `datetime.date` uses. -/
def isLeap (y : Nat) : Bool := (y % 4 = 0 && ! y % 100 = 0) || y % 400 = 0

/-- Days in a month of the proleptic Gregorian calendar. -/
def daysInMonth (y m : Nat) : Nat :=
  if m = 2 then (if isLeap y then 29 else 28)
  else if m = 4 ∨ m = 6 ∨ m = 9 ∨ m = 11 then 30 else 31

/-- Whether `datetime.date(y, m, d)` succeeds, for `m` already in `1..12`
(every `MONTHS_ES` value is): `datetime` also bounds the year to `1..9999`. -/
def validDate (y m d : Nat) : Bool :=
  1 ≤ y && y ≤ 9999 && 1 ≤ d && d ≤ daysInMonth y m

/-- Decimal digits of a number (e.g. `fun n => Nat.toDigits 10 n`). -/
def natDigits (n : Nat) : Str := Nat.toDigits 10 n

/-- Left-pad with zeroes, as `%04d`/`%02d` in `date.isoformat`. -/
def padZero (len : Nat) (s : Str) : Str := List.replicate (len - s.length) '0' ++ s

/-- `datetime.date(y, m, d).isoformat()`. -/
def isoFormat (y m d : Nat) : Str :=
  padZero 4 (natDigits y) ++ '-' :: (padZero 2 (natDigits m) ++ '-' :: padZero 2 (natDigits d))

/-- Lines 68-74 of `parse_spanish_date`: the `if day and month` guard (on a
found day `d`, truthiness is `d ≠ 0`; a month from the table is never `0`),
the `date(y, month, day).isoformat()` call, and the fallback to the input;
a `ValueError` from `date` is caught and yields the input unchanged, which
is the `validDate` test. -/
def dateFromParts (year : Nat) (s : Str) (od om : Option Nat) : Str :=
  match od, om with
  | some d, some m =>
    if d ≠ 0 then (if validDate year m d then isoFormat year m d else s) else s
  | _, _ => s

/-- Source `parse_spanish_date` (lines 46-74).  The current year is an
explicit parameter `year` (the code reads `date.today().year`). -/
def parse_spanish_date (year : Nat) (s : Str) : Str :=
  let txt := strip (((lowerStr s).map (fun c => if c = ',' then ' ' else c)).map
    (fun c => if c = '.' then ' ' else c))
  let parts := splitWS txt
  dateFromParts year s (firstDigitTok parts) (firstMonthTok parts)

/-! ## `fetch_earnings_investing.py`: parenthesis extraction (lines 77-84)

`extraer_base_y_parens` uses `re.findall(r"\((.*?)\)", evento)` and
`re.sub(r"\(.*?\)", "", evento)`.  Both walk the string left to right; a
match is an `(` followed by the nearest later `)` with no newline between
(`.` does not match a newline), and matches do not overlap.  `scanParens`
performs that walk once, returning the unmatched characters (the base) and
the list of matched paren contents in order. -/

/-- One left-to-right pass of the two regexes of `extraer_base_y_parens`,
as a structural state machine: the first argument is `none` outside a
tentative paren group and `some buf` (the reversed content read so far)
after an `(` whose closing `)` has not yet been seen.  A `)` closes the
group (the nearest `)` wins, as with the non-greedy `.*?`); a newline or
the end of the string aborts the group, whose characters were then never
part of a match and stay in the base (`.` does not match a newline, and no
later match can start before the newline because the aborted group holds no
`)`). -/
def spAux : Option Str → Str → Str × List Str
  | none, [] => ([], [])
  | some buf, [] => ('(' :: buf.reverse, [])
  | none, c :: cs =>
    if c = '(' then spAux (some []) cs
    else ((c :: (spAux none cs).1), (spAux none cs).2)
  | some buf, c :: cs =>
    if c = ')' then ((spAux none cs).1, buf.reverse :: (spAux none cs).2)
    else if c = '\n' then ('(' :: (buf.reverse ++ '\n' :: (spAux none cs).1), (spAux none cs).2)
    else spAux (some (c :: buf)) cs

/-- The combined result of `re.sub(r"\(.*?\)", "", ·)` (first component,
the unmatched characters) and `re.findall(r"\((.*?)\)", ·)` (second
component, the matched paren contents in order). -/
def scanParens (s : Str) : Str × List Str := spAux none s

/-- Source `extraer_base_y_parens` (lines 77-84). -/
def extraer_base_y_parens (evento : Str) : Str × List Str :=
  (strip (scanParens evento).1, (scanParens evento).2)

/-! ## `fetch_earnings_investing.py`: aggregation (source lines 86-143) -/

/-- A `['Día', 'Evento2']` row. -/
abbrev Row := Str × Str

/-- The grouping key `clave = (dia, base)` of line 105. -/
abbrev GKey := Str × Str

/-- One entry of the `agrupado` dictionary: a key and the token set it
accumulated (a Python `set`, represented by its insertion-ordered,
duplicate-free element list — only its sorted form is ever used). -/
abbrev GEntry := GKey × List Str

/-- Adding one element to a Python `set`. -/
def setAdd (v : List Str) (t : Str) : List Str := if t ∈ v then v else v ++ [t]

/-- Adding a list of elements, one at a time, to a Python `set`. -/
def setAddList (v : List Str) (ts : List Str) : List Str := ts.foldl setAdd v

/-- A separator character of `re.split(r"[/,;]\s*", ·)` (line 111). -/
def isSepTok (c : Char) : Bool := c = '/' || c = ',' || c = ';'

/-- `re.split(r"[/,;]\s*", ·)`, as a structural state machine: cut at each
`/`, `,` or `;`, the separator swallowing the whitespace run that follows
it (the `skip` flag is set right after a separator while that run lasts). -/
def splitSepM : Bool → Str → List Str
  | _, [] => [[]]
  | skip, c :: cs =>
    if skip && c.isWhitespace then splitSepM skip cs
    else if isSepTok c then [] :: splitSepM true cs
    else
      match splitSepM false cs with
      | t :: ts => (c :: t) :: ts
      | [] => [[c]]

/-- `re.split(r"[/,;]\s*", ·)` (line 111). -/
def splitSep (s : Str) : List Str := splitSepM false s

/-- Whether a row survives the guard of lines 99-102: both stripped cells
are non-empty. -/
def isValidRow (r : Row) : Bool := ! (strip r.1).isEmpty && ! (strip r.2).isEmpty

/-- The key `clave` built for a (valid) row in lines 99-105. -/
def keyOf (r : Row) : GKey := (strip r.1, (extraer_base_y_parens (strip r.2)).1)

/-- The paren tokens a row contributes in lines 110-114: each paren content
is stripped, split on `/`, `,`, `;`, and the stripped non-empty pieces kept. -/
def tokensOf (r : Row) : List Str :=
  ((extraer_base_y_parens (strip r.2)).2).flatMap
    (fun p => ((splitSep (strip p)).map strip).filter (fun t => ! t.isEmpty))

/-- One iteration of the `df.iterrows()` loop (lines 98-114) on the
`agrupado` dictionary. -/
def step (m : List GEntry) (r : Row) : List GEntry :=
  if isValidRow r then
    if keyOf r ∈ m.map Prod.fst then
      m.map (fun e => if e.1 = keyOf r then (e.1, setAddList e.2 (tokensOf r)) else e)
    else m ++ [(keyOf r, setAddList [] (tokensOf r))]
  else m

/-- The `agrupado` dictionary after the whole loop, as an insertion-ordered
association list (Python dicts preserve insertion order). -/
def groupEvents (df : List Row) : List GEntry := df.foldl step []

/-- Source `reemplazos_parens` (lines 116-124). -/
def reemplazos_parens : List (Str × Str) :=
  [(("Anual").data, ("YoY").data), (("Trimestral").data, ("QoQ").data),
   (("Mensual").data, ("MoM").data), (("1T").data, ("Q1").data),
   (("2T").data, ("Q2").data), (("3T").data, ("Q3").data), (("4T").data, ("Q4").data)]

/-- `reemplazos_parens.get(elem, elem)` (line 129). -/
def applyReemplazo (t : Str) : Str :=
  match reemplazos_parens.lookup t with
  | some r => r
  | none => t

/-- Lines 131-134: the final event text of a group, before stopword
removal. -/
def renderEvent (base : Str) (ps : List Str) : Str :=
  if ps.isEmpty then base else base ++ ' ' :: '(' :: (joinSlash ps ++ [')'])

/-- Lines 127-137: one output row from one `agrupado` entry (sort the token
set, apply the replacement table, render, strip stopwords). -/
def mkRow (e : GEntry) : Row :=
  (e.1.1, remove_stopwords_from_event (renderEvent e.1.2 ((sortStr e.2).map applyReemplazo)))

/-- Source `aglutinar_eventos_por_dia` (lines 86-143).  The empty-input and
empty-output early returns both produce the empty two-column frame, i.e. no
rows. -/
def aglutinar_eventos_por_dia (df : List Row) : List Row :=
  if df.isEmpty then [] else sortRows ((groupEvents df).map mkRow)

/-! ## `fetch_earnings_investing.py`: the scrapers (source lines 146-337)

The HTTP round trip and the `BeautifulSoup` traversal are external
libraries.  A response is modelled by its status code and its JSON `data`
field (`none` models a missing key; the empty string is the falsy value the
code tests for); the HTML tables inside `data` are modelled by a parsing
function parameter that yields, for each `<tr>`, exactly the fields the
loops read off the tree. -/

/-- The country-to-code lambda of lines 238-239 and 326-327. -/
def mapCountry (x : Str) : Str :=
  if x = ("España").data then ("ES").data
  else if x = ("Eurozona").data then ("EU").data
  else ("US").data

/-- The modelled HTTP response of the calendar POST. -/
structure HttpResp where
  status : Nat
  dataField : Option Str

/-- A two-column calendar `DataFrame`: its column labels and its rows. -/
structure CalDF where
  cols : List Str
  rows : List Row
deriving DecidableEq

/-- `pd.DataFrame(columns=["Día", "Evento2"])`. -/
def emptyCal : CalDF := ⟨[("Día").data, ("Evento2").data], []⟩

/-- One `<tr>` of the earnings table, as read by lines 202-231: either a row
carrying a `theDay` cell (its stripped text), or an event row with the
fields the loop reads (`tds` non-empty, presence of the company cell, the
optional flag `title`, the stripped company-name text). -/
inductive EarnTr where
  | dayRow (txt : Str)
  | itemRow (hasTds : Bool) (hasCompanyCell : Bool) (flagTitle : Option Str) (companyName : Option Str)

/-- The earnings row loop (lines 199-231), carrying `current_day_parsed`.
Produces the `resultados` records `(Día, Country, Empresa)`. -/
def earnLoop (year : Nat) (cur : Option Str) : List EarnTr → List (Str × Str × Str)
  | [] => []
  | EarnTr.dayRow txt :: rest => earnLoop year (some (parse_spanish_date year txt)) rest
  | EarnTr.itemRow hasTds hasCC flagTitle companyName :: rest =>
    if hasTds && hasCC then
      let country := match flagTitle with
        | some t => strip t
        | none => ("Desconocido").data
      let empresa := strip (companyName.getD [])
      match cur with
      | some d =>
        if empresa.isEmpty || d.isEmpty then earnLoop year cur rest
        else (d, country, empresa) :: earnLoop year cur rest
      | none => earnLoop year cur rest
    else earnLoop year cur rest

/-- Source `scrape_earnings` (lines 146-243): guard the status code and the
`data` field, run the row loop, and build `Evento2 = País2 + " Resultado " +
Empresa`, deduplicated. -/
def scrape_earnings (year : Nat) (parseHtml : Str → List EarnTr) (resp : HttpResp) : CalDF :=
  if resp.status ≠ 200 then emptyCal
  else if resp.dataField = none ∨ (resp.dataField.getD []).isEmpty then emptyCal
  else if (earnLoop year none (parseHtml (resp.dataField.getD []))).isEmpty then emptyCal
  else
    ⟨[("Día").data, ("Evento2").data],
      dedupKeep ((earnLoop year none (parseHtml (resp.dataField.getD []))).map (fun r =>
        (r.1, mapCountry r.2.1 ++ (" Resultado ").data ++ r.2.2)))⟩

/-- One `js-event-item` `<tr>` of the economic table, as read by lines
302-319: its `data-event-datetime` attribute (empty models a missing one),
the optional flag `title`, and the stripped text of its first `<a>` tag. -/
structure EconTr where
  eventDatetime : Str
  flagTitle : Option Str
  linkText : Option Str

/-- The economic row loop (lines 301-319): `Día` is the datetime up to the
first space, the country the stripped flag title (else empty), the event
the link text (else empty); rows with an empty day or event are skipped. -/
def econExtract : List EconTr → List (Str × Str × Str)
  | [] => []
  | r :: rest =>
    let dia := if r.eventDatetime.isEmpty then [] else r.eventDatetime.takeWhile (fun c => ! c = ' ')
    let pais := match r.flagTitle with
      | some t => strip t
      | none => []
    let evento := r.linkText.getD []
    if dia.isEmpty || evento.isEmpty then econExtract rest
    else (dia, pais, evento) :: econExtract rest

/-- Source `scrape_economic` (lines 245-337): guards as in
`scrape_earnings`, `Evento2 = País2 + " " + Evento`, deduplication, then
`aglutinar_eventos_por_dia`. -/
def scrape_economic (parseHtml : Str → List EconTr) (resp : HttpResp) : CalDF :=
  if resp.status ≠ 200 then emptyCal
  else if resp.dataField = none ∨ (resp.dataField.getD []).isEmpty then emptyCal
  else if (econExtract (parseHtml (resp.dataField.getD []))).isEmpty then emptyCal
  else
    ⟨[("Día").data, ("Evento2").data],
      aglutinar_eventos_por_dia (dedupKeep ((econExtract (parseHtml (resp.dataField.getD []))).map
        (fun r => (r.1, mapCountry r.2.1 ++ ' ' :: r.2.2))))⟩

/-! ## `fetch_earnings_investing.py`: the Monday-Friday window and `main`
(source lines 342-381) -/

/-- Dates are modelled by their proleptic-Gregorian ordinal
(`datetime.date.toordinal`); ordinal 1, `0001-01-01`, is a Monday, so
`date.weekday()` (Monday = 0) is `(n - 1) % 7`. -/
def weekdayOrd (n : ℤ) : ℤ := (n - 1) % 7

/-- Source `monday_to_friday` (lines 342-359); the `ValueError` branch is
the `Except.error`. -/
def monday_to_friday (base : ℤ) (when : Str) : Except Unit (ℤ × ℤ) :=
  let start := base - weekdayOrd base
  if when = ("next").data then Except.ok (start + 7, start + 7 + 4)
  else if when = ("current").data then Except.ok (start, start + 4)
  else Except.error ()

/-- The combination step of `main` (lines 379-381): concatenate the two
frames, drop duplicates (`dropna` never removes one of these all-string
rows), and sort by `["Día", "Evento2"]`. -/
def combinedCalendar (econ earn : List Row) : List Row :=
  sortRows (dedupKeep (econ ++ earn))

/-! ## `embalses_dict.py` (source lines 12-130)

The fetch-and-parse of one target — `requests.get` followed by `_parse` and
its `BeautifulSoup` lookups — is abstracted as a function from the target
URL to `none` (an exception anywhere in the attempt, or `_parse` returning
`None`) or `some d` with `d` the key list of the parsed dictionary (its
values play no role in the control flow of the fallback loop). -/

/-- The key list of a parsed `dict_agua`. -/
abbrev EmbDict := List Str

/-- Line 17: the direct `url`. -/
def urlDirect : Str := ("https://www.embalses.net/").data

/-- Line 31: the allorigins proxy URL, embedding
`urllib.parse.quote_plus("https://www.embalses.net/")`. -/
def urlAllorigins : Str :=
  ("https://api.allorigins.win/raw?url=https%3A%2F%2Fwww.embalses.net%2F").data

/-- Line 33: the jina reader-mode URL. -/
def urlJina : Str := ("https://r.jina.ai/http://www.embalses.net/").data

/-- Source `targets` (lines 30-34): allorigins proxy first, then the direct
URL, then the jina reader. -/
def targets : List (Str × Str) :=
  [(("allorigins").data, urlAllorigins),
   (("direct").data, urlDirect),
   (("jina").data, urlJina)]

/-- The success test of line 107: the attempt parsed and the dictionary has
the key `AGUA_TOTAL`. -/
def targetSuccess (o : Option EmbDict) : Bool :=
  match o with
  | some d => decide (("AGUA_TOTAL").data ∈ d)
  | none => false

/-- The fallback loop of lines 90-118: walk the targets in order, return at
the first success; also record the names of the targets actually attempted. -/
def tryTargets (fp : Str → Option EmbDict) : List (Str × Str) → Option EmbDict × List Str
  | [] => (none, [])
  | t :: rest =>
    match fp t.2 with
    | some d =>
      if ("AGUA_TOTAL").data ∈ d then (some d, [t.1])
      else ((tryTargets fp rest).1, t.1 :: (tryTargets fp rest).2)
    | none => ((tryTargets fp rest).1, t.1 :: (tryTargets fp rest).2)

/-- Source `dict_agua_embalses` (lines 12-130): the first successfully
parsed dictionary, else `None` when `fail_silently` and `RuntimeError`
(the `Except.error`) otherwise. -/
def dict_agua_embalses (fp : Str → Option EmbDict) (failSilently : Bool) :
    Except Unit (Option EmbDict) :=
  match (tryTargets fp targets).1 with
  | some d => Except.ok (some d)
  | none => if failSilently then Except.ok none else Except.error ()

/-- The names of the targets `dict_agua_embalses` actually attempts. -/
def attemptedTargets (fp : Str → Option EmbDict) : List Str := (tryTargets fp targets).2

/-! ## `embalses_dict.py`: numeric normalisation in `_parse`
(source lines 73-85) -/

/-- Lines 75-77: `txt_norm`.  `str.replace(",", ".")` maps every comma to a
point; when the original text has at least one `.` and contains a `,`, every
`.` is removed first (`replace(".", "")`) and then every `,` becomes `.`. -/
def normalizeNumericText (txt : Str) : Str :=
  let txtNorm := txt.map (fun c => if c = ',' then '.' else c)
  if 1 ≤ txt.count '.' && txt.contains ',' then
    (txt.filter (fun c => ! c = '.')).map (fun c => if c = ',' then '.' else c)
  else txtNorm

/-- Python `float()` on the normalised text, modelled exactly over `ℚ`:
optional surrounding whitespace, an optional sign, an integer part and/or a
fractional part with at least one digit, and an optional exponent.
(`inf`/`nan` and `_` digit separators are outside the modelled fragment.) -/
def parseDigitsQ (l : Str) : Option Nat :=
  if l.isEmpty then none else if l.all Char.isDigit then some (natOfDigits l) else none

/-- The exponent suffix after `e`/`E`: optional sign, at least one digit. -/
def parseExpQ (l : Str) : Option Int :=
  match l with
  | '+' :: r => (parseDigitsQ r).map (fun n => (n : Int))
  | '-' :: r => (parseDigitsQ r).map (fun n => -(n : Int))
  | r => (parseDigitsQ r).map (fun n => (n : Int))

/-- Mantissa and optional exponent: `digits[.digits][(e|E)exp]`. -/
def parseMantissaQ (l : Str) : Option ℚ :=
  let ip := l.takeWhile Char.isDigit
  let rest := l.dropWhile Char.isDigit
  match rest with
  | [] => if ip.isEmpty then none else some ((natOfDigits ip : ℚ))
  | '.' :: r =>
    let fp := r.takeWhile Char.isDigit
    let rest2 := r.dropWhile Char.isDigit
    if ip.isEmpty && fp.isEmpty then none
    else
      let mant : ℚ := (natOfDigits ip : ℚ) + (natOfDigits fp : ℚ) / ((10 : ℚ) ^ fp.length)
      match rest2 with
      | [] => some mant
      | 'e' :: e => (parseExpQ e).map (fun k => mant * (10 : ℚ) ^ (k : Int))
      | 'E' :: e => (parseExpQ e).map (fun k => mant * (10 : ℚ) ^ (k : Int))
      | _ => none
  | 'e' :: e =>
    if ip.isEmpty then none
    else (parseExpQ e).map (fun k => ((natOfDigits ip : ℚ)) * (10 : ℚ) ^ (k : Int))
  | 'E' :: e =>
    if ip.isEmpty then none
    else (parseExpQ e).map (fun k => ((natOfDigits ip : ℚ)) * (10 : ℚ) ^ (k : Int))
  | _ => none

/-- Python `float(s)` (modelled fragment, exact rational value). -/
def parseFloatQ (s : Str) : Option ℚ :=
  match strip s with
  | '+' :: r => parseMantissaQ r
  | '-' :: r => (parseMantissaQ r).map (fun q => -q)
  | r => parseMantissaQ r

/-- Lines 73-83 for the first `Resultado` div (`l == 0`): normalise the
cell text, parse it as a float, and multiply by 1000 for every key except
`VARIACION`.  `none` models the `ValueError` that a non-numeric cell would
raise (caught by the fallback loop around `_parse`). -/
def resultado1 (key : Str) (txt : Str) : Option ℚ :=
  match parseFloatQ (normalizeNumericText txt) with
  | none => none
  | some v => some (if key ≠ ("VARIACION").data then v * 1000 else v)

/-! ## Spec-side definitions

Each definition below follows the wording of a claim (or of the spec
sentence it quotes), to be compared with the definitions above, which
follow the source. -/

/-- Spec-side reading of the guard of C5: day found and non-zero, month
found, and the parts form a valid calendar date; otherwise the input is
returned unchanged. -/
def specDateFromParts (year : Nat) (s : Str) (od om : Option Nat) : Str :=
  match od, om with
  | some d, some m => if 0 < d ∧ validDate year m d then isoFormat year m d else s
  | _, _ => s

/-- Spec-side reading of C5: the ISO date formed from the first all-digit
token (day), the first `MONTHS_ES` token (month) and the given year,
whenever both exist, the day is non-zero and the date is valid. -/
def specParseSpanishDate (year : Nat) (s : Str) : Str :=
  let parts := splitWS (strip ((lowerStr s).map (fun c => if c = ',' ∨ c = '.' then ' ' else c)))
  specDateFromParts year s (firstDigitTok parts) (firstMonthTok parts)

/-- Spec-side reading of C4: with both a point and a comma present, every
point is removed and every comma becomes a point, otherwise every comma
becomes a point; the parse of that string is multiplied by 1000 for every
key other than `VARIACION`. -/
def specResultado1 (key txt : Str) : Option ℚ :=
  if '.' ∈ txt ∧ ',' ∈ txt then
    (parseFloatQ ((txt.filter (fun c => ! c = '.')).map (fun c => if c = ',' then '.' else c))).map
      (fun v => if key = ("VARIACION").data then v else 1000 * v)
  else
    (parseFloatQ (txt.map (fun c => if c = ',' then '.' else c))).map
      (fun v => if key = ("VARIACION").data then v else 1000 * v)

/-- The target order asserted by C3: direct URL first, then the proxy, then
the reader (the source's `targets` puts the proxy first). -/
def claimedTargets : List (Str × Str) :=
  [(("direct").data, urlDirect),
   (("allorigins").data, urlAllorigins),
   (("jina").data, urlJina)]

/-- A concrete fetch outcome for the C3 counterexample: the direct URL and
the proxy URL both yield parseable structure, with distinguishable
dictionaries. -/
def c3Fetch : Str → Option EmbDict := fun u =>
  if u = urlDirect then some [("AGUA_TOTAL").data, ("FROM_DIRECT").data]
  else if u = urlAllorigins then some [("AGUA_TOTAL").data, ("FROM_PROXY").data]
  else none

/-- The valid rows of the aggregation input (guard of lines 99-102). -/
def validRows (df : List Row) : List Row := df.filter isValidRow

/-- Spec-side reading of C1's grouping: the distinct `(day, base)` pairs of
the valid rows, in order of first appearance. -/
def specKeys (df : List Row) : List GKey := dedupKeep ((validRows df).map keyOf)

/-- Spec-side reading of C1's token collection: all parenthetical tokens of
the rows of a group, in row order. -/
def allTokens (df : List Row) (k : GKey) : List Str :=
  ((validRows df).filter (fun r => decide (keyOf r = k))).flatMap tokensOf

/-- Spec-side reading of C1's output row for a key: the base followed, when
the group collected any parenthetical token, by the slash-joined sorted
token collection with the replacement table applied, stopwords removed from
the final string. -/
def specRow (df : List Row) (k : GKey) : Row :=
  (k.1, remove_stopwords_from_event
    (renderEvent k.2 ((sortStr (setAddList [] (allTokens df k))).map applyReemplazo)))

/-- `re.split` on `/` alone: how a reader splits the qualifier list between
the final parentheses of an output event (C2). -/
def splitSlash : Str → List Str
  | [] => [[]]
  | c :: cs =>
    if c = '/' then [] :: splitSlash cs
    else
      match splitSlash cs with
      | t :: ts => (c :: t) :: ts
      | [] => [[c]]

/-- The qualifier tokens between the final parentheses of an event text
(C2): the content of the last paren group, split on `/`. -/
def finalParenQualifiers (e : Str) : List Str :=
  match (scanParens e).2.getLast? with
  | some p => splitSlash p
  | none => []

/-- The three country codes of C8. -/
def countryCodes : List Str := [("ES").data, ("EU").data, ("US").data]

/-- C2 counterexample input: the same base with qualifiers `Anual` and
`YoY` on the same day. -/
def dfC2 : List Row :=
  [(("2026-01-05").data, ("X (Anual)").data), (("2026-01-05").data, ("X (YoY)").data)]

/-- C7 counterexample input: two distinct bases that become the same text
after stopword removal. -/
def dfC7 : List Row :=
  [(("2026-02-02").data, ("de x").data), (("2026-02-02").data, ("x").data)]

/-- A whitespace-split token: non-empty and free of whitespace. -/
def goodTok (t : Str) : Prop := t ≠ [] ∧ ∀ c ∈ t, c.isWhitespace = false

/-! ## Concrete inputs used to instantiate the theorems -/

/-- A fetch in which no target yields parseable structure. -/
def fetchAllFail : Str → Option EmbDict := fun _ => none

/-- A failing HTTP response. -/
def respFail : HttpResp := ⟨500, none⟩

/-- An HTML parse that extracts no rows at all. -/
def parseEarnNone : Str → List EarnTr := fun _ => []

/-- An HTML parse that extracts no economic rows. -/
def parseEconNone : Str → List EconTr := fun _ => []

/-- A successful response body (its content is read only through the
parsing parameters). -/
def respOk : HttpResp := ⟨200, some (("<tr>...</tr>").data)⟩

/-- An economic table with a single Spanish event whose text is one
stopword. -/
def parseEconStopword : Str → List EconTr := fun _ =>
  [⟨("2026-02-02 10:00:00").data, some (("España").data), some (("de").data)⟩]

/-- An earnings table with one day header and one Spanish company row. -/
def parseEarnOne : Str → List EarnTr := fun _ =>
  [EarnTr.dayRow (("13 febrero").data),
   EarnTr.itemRow true true (some (("España").data)) (some (("ACS").data))]

/-- An event text that begins with a country code, either alone or followed
by a space (the C8 invariant as the code actually guarantees it). -/
def hasCodeHead (e : Str) : Prop :=
  ∃ c ∈ countryCodes, e = c ∨ ∃ r, e = c ++ ' ' :: r

/-! ## Helper lemmas: whitespace splitting against joining -/

theorem splitWS_ws_cons (c : Char) (r : Str) (h : c.isWhitespace = true) :
    splitWS (c :: r) = splitWS r := by
  cases r with
  | nil => simp [splitWS, h]
  | cons d cs => rw [splitWS, if_pos h]

theorem splitWS_tokens_good : ∀ (s : Str), ∀ t ∈ splitWS s, goodTok t := by
  intro s
  induction s using splitWS.induct with
  | case1 => intro t ht; simp [splitWS] at ht
  | case2 c hws =>
    intro t ht
    rw [splitWS, if_pos hws] at ht
    simp at ht
  | case3 c hws =>
    intro t ht
    rw [splitWS, if_neg hws] at ht
    have ht2 : t = [c] := by simpa using ht
    subst ht2
    refine ⟨by simp, ?_⟩
    intro x hx
    have hxc : x = c := by simpa using hx
    subst hxc
    simpa using hws
  | case4 c d cs hws ih =>
    intro t ht
    rw [splitWS, if_pos hws] at ht
    exact ih t ht
  | case5 c d cs hc hd ih =>
    intro t ht
    rw [splitWS, if_neg hc, if_pos hd] at ht
    rcases List.mem_cons.mp ht with h1 | h1
    · subst h1
      refine ⟨by simp, ?_⟩
      intro x hx
      have hxc : x = c := by simpa using hx
      subst hxc
      simpa using hc
    · exact ih t h1
  | case6 c d cs hc hd t0 ts0 heq ih =>
    intro t ht
    rw [splitWS, if_neg hc, if_neg hd] at ht
    simp only [heq] at ht
    rcases List.mem_cons.mp ht with h1 | h1
    · subst h1
      have hgood := ih t0 (by rw [heq]; simp)
      refine ⟨by simp, ?_⟩
      intro x hx
      rcases List.mem_cons.mp hx with h2 | h2
      · subst h2
        simpa using hc
      · exact hgood.2 x h2
    · exact ih t (by rw [heq]; simp [h1])
  | case7 c d cs hc hd heq ih =>
    intro t ht
    rw [splitWS, if_neg hc, if_neg hd] at ht
    simp only [heq] at ht
    have ht2 : t = [c] := by simpa using ht
    subst ht2
    refine ⟨by simp, ?_⟩
    intro x hx
    have hxc : x = c := by simpa using hx
    subst hxc
    simpa using hc

theorem splitWS_token_append (t r : Str) (h : goodTok t) :
    splitWS (t ++ ' ' :: r) = t :: splitWS r := by
  obtain ⟨hne, hnws⟩ := h
  induction t with
  | nil => exact absurd rfl hne
  | cons d t' ih =>
    have hd : d.isWhitespace = false := hnws d (by simp)
    cases t' with
    | nil =>
      rw [List.cons_append, List.nil_append]
      rw [splitWS, if_neg (by simp [hd]), if_pos (by simp)]
      rw [splitWS_ws_cons ' ' r (by simp)]
    | cons d2 t'' =>
      have hd2 : d2.isWhitespace = false := hnws d2 (by simp)
      have ih2 : splitWS (d2 :: (t'' ++ ' ' :: r)) = (d2 :: t'') :: splitWS r := by
        rw [← List.cons_append]
        exact ih (by simp) (fun x hx => hnws x (by simp at hx; simp [hx]))
      rw [List.cons_append, List.cons_append]
      rw [splitWS, if_neg (by simp [hd]), if_neg (by simp [hd2])]
      rw [← List.cons_append]
      simp only [List.cons_append, ih2]

theorem splitWS_token (t : Str) (h : goodTok t) : splitWS t = [t] := by
  obtain ⟨hne, hnws⟩ := h
  induction t with
  | nil => exact absurd rfl hne
  | cons d t' ih =>
    have hd : d.isWhitespace = false := hnws d (by simp)
    cases t' with
    | nil => simp [splitWS, hd]
    | cons d2 t'' =>
      have hd2 : d2.isWhitespace = false := hnws d2 (by simp)
      have ih2 : splitWS (d2 :: t'') = [d2 :: t''] :=
        ih (by simp) (fun x hx => hnws x (by simp at hx; simp [hx]))
      rw [splitWS, if_neg (by simp [hd]), if_neg (by simp [hd2])]
      simp only [ih2]

theorem splitWS_joinSp : ∀ (ts : List Str), (∀ t ∈ ts, goodTok t) → splitWS (joinSp ts) = ts := by
  intro ts
  induction ts with
  | nil => intro _; simp [splitWS, joinSp]
  | cons t ts ih =>
    intro h
    cases ts with
    | nil => exact splitWS_token t (h t (by simp))
    | cons t2 ts' =>
      rw [joinSp, splitWS_token_append t _ (h t (by simp))]
      rw [ih (fun x hx => h x (by simp [hx]))]

/-! ## Helper lemmas: the row order is total and transitive -/

theorem strLtb_trichot : ∀ a b : Str, strLtb a b = true ∨ strLtb b a = true ∨ a = b := by
  intro a
  induction a with
  | nil =>
    intro b
    cases b with
    | nil => right; right; rfl
    | cons y ys => left; rfl
  | cons x xs ih =>
    intro b
    cases b with
    | nil => right; left; rfl
    | cons y ys =>
      by_cases hxy : x < y
      · left
        simp [strLtb, hxy]
      · by_cases hyx : y < x
        · right; left
          simp [strLtb, hyx]
        · have hxyeq : x = y := le_antisymm (not_lt.mp hyx) (not_lt.mp hxy)
          subst hxyeq
          rcases ih ys with h | h | h
          · left
            simp [strLtb, h]
          · right; left
            simp [strLtb, h]
          · right; right
            rw [h]

theorem strLtb_trans : ∀ a b c : Str, strLtb a b = true → strLtb b c = true → strLtb a c = true := by
  intro a
  induction a with
  | nil =>
    intro b c hab hbc
    cases b with
    | nil => simp [strLtb] at hab
    | cons y ys =>
      cases c with
      | nil => simp [strLtb] at hbc
      | cons z zs => rfl
  | cons x xs ih =>
    intro b c hab hbc
    cases b with
    | nil => simp [strLtb] at hab
    | cons y ys =>
      cases c with
      | nil => simp [strLtb] at hbc
      | cons z zs =>
        simp only [strLtb] at hab hbc ⊢
        by_cases hxy : x < y
        · by_cases hyz : y < z
          · simp [lt_trans hxy hyz]
          · by_cases hzy : z < y
            · simp [strLtb, hyz, hzy] at hbc
            · have : y = z := le_antisymm (not_lt.mp hzy) (not_lt.mp hyz)
              subst this
              simp [hxy]
        · by_cases hyx : y < x
          · simp [hxy, hyx] at hab
          · have : x = y := le_antisymm (not_lt.mp hyx) (not_lt.mp hxy)
            subst this
            simp only [lt_irrefl, if_false] at hab
            by_cases hyz : x < z
            · simp [hyz]
            · by_cases hzy : z < x
              · simp [hyz, hzy] at hbc
              · have : x = z := le_antisymm (not_lt.mp hzy) (not_lt.mp hyz)
                subst this
                simp only [lt_irrefl, if_false] at hbc ⊢
                exact ih ys zs hab hbc

theorem strLeb_total : ∀ a b : Str, strLeb a b = true ∨ strLeb b a = true := by
  intro a b
  rcases strLtb_trichot a b with h | h | h
  · left; simp [strLeb, h]
  · right; simp [strLeb, h]
  · left; simp [strLeb, h]

theorem strLeb_trans : ∀ a b c : Str, strLeb a b = true → strLeb b c = true → strLeb a c = true := by
  intro a b c hab hbc
  simp only [strLeb, Bool.or_eq_true, decide_eq_true_iff] at hab hbc ⊢
  rcases hab with hab | hab
  · rcases hbc with hbc | hbc
    · left; exact strLtb_trans a b c hab hbc
    · subst hbc; left; exact hab
  · subst hab
    exact hbc

instance : IsTotal Row rowLE := by
  constructor
  intro a b
  rcases strLtb_trichot a.1 b.1 with h | h | h
  · left; left; exact h
  · right; left; exact h
  · rcases strLeb_total a.2 b.2 with h2 | h2
    · left; right; exact ⟨h, h2⟩
    · right; right; exact ⟨h.symm, h2⟩

instance : IsTrans Row rowLE := by
  constructor
  intro a b c hab hbc
  rcases hab with hab | ⟨hab1, hab2⟩
  · rcases hbc with hbc | ⟨hbc1, hbc2⟩
    · left; exact strLtb_trans _ _ _ hab hbc
    · left; rw [← hbc1]; exact hab
  · rcases hbc with hbc | ⟨hbc1, hbc2⟩
    · left; rw [hab1]; exact hbc
    · right
      exact ⟨hab1.trans hbc1, strLeb_trans _ _ _ hab2 hbc2⟩

/-! ## Helper lemmas: deduplication -/

theorem dedupKeep_sub {α : Type} [DecidableEq α] : ∀ (l : List α) (x : α), x ∈ dedupKeep l → x ∈ l := by
  intro l
  induction l with
  | nil => intro x hx; simp [dedupKeep] at hx
  | cons y ys ih =>
    intro x hx
    rw [dedupKeep] at hx
    rcases List.mem_cons.mp hx with h | h
    · simp [h]
    · right
      exact ih x (List.mem_of_mem_filter h)

theorem dedupKeep_nodup {α : Type} [DecidableEq α] : ∀ (l : List α), (dedupKeep l).Nodup := by
  intro l
  induction l with
  | nil => simp [dedupKeep]
  | cons y ys ih =>
    rw [dedupKeep]
    refine List.nodup_cons.mpr ⟨?_, ih.filter _⟩
    intro hmem
    have := List.of_mem_filter hmem
    simp at this

/-! ## Helper lemmas: the grouping loop computes a group-by -/

theorem setAddList_app (v a b : List Str) :
    setAddList v (a ++ b) = setAddList (setAddList v a) b := by
  simp [setAddList, List.foldl_append]

theorem allTokens_nil : ∀ k, allTokens [] k = [] := by
  intro k
  simp [allTokens, validRows]

theorem specKeys_nil : specKeys [] = [] := by
  simp [specKeys, validRows, dedupKeep]

theorem allTokens_cons_invalid (r : Row) (rest : List Row) (hval : isValidRow r = false) :
    ∀ k, allTokens (r :: rest) k = allTokens rest k := by
  intro k
  unfold allTokens validRows
  rw [List.filter_cons_of_neg (by simp [hval])]

theorem specKeys_cons_invalid (r : Row) (rest : List Row) (hval : isValidRow r = false) :
    specKeys (r :: rest) = specKeys rest := by
  unfold specKeys validRows
  rw [List.filter_cons_of_neg (by simp [hval])]

theorem allTokens_cons (r : Row) (rest : List Row) (hval : isValidRow r = true) :
    ∀ k, allTokens (r :: rest) k =
      (if keyOf r = k then tokensOf r else []) ++ allTokens rest k := by
  intro k
  unfold allTokens validRows
  rw [List.filter_cons_of_pos hval]
  by_cases hk : keyOf r = k
  · rw [List.filter_cons_of_pos (by simp [hk]), if_pos hk]
    simp [allTokens, validRows]
  · rw [List.filter_cons_of_neg (by simp [hk]), if_neg hk]
    simp [allTokens, validRows]

theorem specKeys_cons (r : Row) (rest : List Row) (hval : isValidRow r = true) :
    specKeys (r :: rest) = keyOf r :: (specKeys rest).filter (fun k => ! decide (k = keyOf r)) := by
  unfold specKeys validRows
  rw [List.filter_cons_of_pos hval, List.map_cons, dedupKeep]

theorem groupEvents_characterization :
    ∀ (df : List Row) (m : List GEntry), (m.map Prod.fst).Nodup →
    df.foldl step m =
      m.map (fun e => (e.1, setAddList e.2 (allTokens df e.1))) ++
      ((specKeys df).filter (fun k => ! decide (k ∈ m.map Prod.fst))).map
        (fun k => (k, setAddList [] (allTokens df k))) := by
  intro df
  induction df with
  | nil =>
    intro m _
    simp only [List.foldl_nil, allTokens_nil, specKeys_nil, List.filter_nil, List.map_nil,
      List.append_nil]
    simp [setAddList]
  | cons r rest ih =>
    intro m hm
    rw [List.foldl_cons]
    by_cases hval : isValidRow r = true
    · by_cases hmem : keyOf r ∈ m.map Prod.fst
      · -- the key already exists: the row only extends its token set
        have hstep : step m r =
            m.map (fun e => if e.1 = keyOf r then (e.1, setAddList e.2 (tokensOf r)) else e) := by
          unfold step
          rw [if_pos hval, if_pos hmem]
        have hkeys : (m.map (fun e =>
            if e.1 = keyOf r then (e.1, setAddList e.2 (tokensOf r)) else e)).map Prod.fst =
            m.map Prod.fst := by
          rw [List.map_map]
          apply List.map_congr_left
          intro e _
          by_cases he : e.1 = keyOf r
          · simp [he, Function.comp]
          · simp [he, Function.comp]
        rw [hstep, ih _ (by rw [hkeys]; exact hm), hkeys]
        have hfilters : (specKeys (r :: rest)).filter (fun k => ! decide (k ∈ m.map Prod.fst)) =
            (specKeys rest).filter (fun k => ! decide (k ∈ m.map Prod.fst)) := by
          rw [specKeys_cons r rest hval, List.filter_cons_of_neg (by simp [hmem]),
            List.filter_filter]
          apply List.filter_congr
          intro k _
          by_cases hk : k = keyOf r
          · subst hk
            simp [hmem]
          · simp [hk]
        rw [hfilters]
        congr 1
        · rw [List.map_map]
          apply List.map_congr_left
          intro e _
          by_cases he : e.1 = keyOf r
          · simp only [Function.comp_apply, if_pos he]
            rw [allTokens_cons r rest hval e.1, if_pos he.symm, setAddList_app]
          · simp only [Function.comp_apply, if_neg he]
            rw [allTokens_cons r rest hval e.1, if_neg (fun hh => he hh.symm),
              List.nil_append]
        · apply List.map_congr_left
          intro k hk
          have hP := List.of_mem_filter hk
          simp only [Bool.not_eq_true', decide_eq_false_iff_not] at hP
          have hne : ¬ keyOf r = k := fun hh => hP (hh ▸ hmem)
          rw [allTokens_cons r rest hval k, if_neg hne, List.nil_append]
      · -- a new key: it is appended at the end of the dictionary
        have hstep : step m r = m ++ [(keyOf r, setAddList [] (tokensOf r))] := by
          unfold step
          rw [if_pos hval, if_neg hmem]
        have hkeys : (m ++ [(keyOf r, setAddList [] (tokensOf r))]).map Prod.fst =
            m.map Prod.fst ++ [keyOf r] := by
          simp
        have hnod : ((m ++ [(keyOf r, setAddList [] (tokensOf r))]).map Prod.fst).Nodup := by
          rw [hkeys]
          simp only [List.nodup_append, List.nodup_cons, List.not_mem_nil, not_false_iff,
            List.nodup_nil, and_true, true_and]
          refine ⟨hm, ?_⟩
          intro a ha hb
          simp only [List.mem_singleton] at hb
          subst hb
          exact hmem ha
        rw [hstep, ih _ hnod, hkeys]
        rw [List.map_append]
        have hmid : ([(keyOf r, setAddList [] (tokensOf r))].map
            (fun e => (e.1, setAddList e.2 (allTokens rest e.1)))) =
            [(keyOf r, setAddList [] (allTokens (r :: rest) (keyOf r)))] := by
          simp only [List.map_cons, List.map_nil]
          rw [allTokens_cons r rest hval (keyOf r), if_pos rfl, setAddList_app]
        rw [hmid, List.append_assoc, List.singleton_append]
        have hfilters : (specKeys rest).filter
              (fun k => ! decide (k ∈ m.map Prod.fst ++ [keyOf r])) =
            ((specKeys rest).filter (fun k => ! decide (k = keyOf r))).filter
              (fun k => ! decide (k ∈ m.map Prod.fst)) := by
          rw [List.filter_filter]
          apply List.filter_congr
          intro k _
          by_cases hk : k = keyOf r
          · subst hk
            simp
          · by_cases hkm : k ∈ m.map Prod.fst
            · simp [hk, hkm]
            · simp [hk, hkm]
        rw [hfilters]
        conv_rhs =>
          rw [specKeys_cons r rest hval, List.filter_cons_of_pos (by simp [hmem]),
            List.map_cons]
        congr 1
        · apply List.map_congr_left
          intro e he
          have hin : e.1 ∈ m.map Prod.fst := List.mem_map_of_mem Prod.fst he
          have hne : ¬ keyOf r = e.1 := fun hh => hmem (hh ▸ hin)
          rw [allTokens_cons r rest hval e.1, if_neg hne, List.nil_append]
        · congr 1
          apply List.map_congr_left
          intro k hk
          have hk2 := List.mem_of_mem_filter hk
          have hQ := List.of_mem_filter hk2
          simp only [Bool.not_eq_true', decide_eq_false_iff_not] at hQ
          have hne : ¬ keyOf r = k := fun hh => hQ hh.symm
          rw [allTokens_cons r rest hval k, if_neg hne, List.nil_append]
    · -- invalid row: nothing changes
      have hval' : isValidRow r = false := by simpa using hval
      have hstep : step m r = m := by
        unfold step
        rw [if_neg (by simp [hval'])]
      rw [hstep, ih m hm]
      simp only [allTokens_cons_invalid r rest hval', specKeys_cons_invalid r rest hval']

theorem groupEvents_eq (df : List Row) :
    groupEvents df = (specKeys df).map (fun k => (k, setAddList [] (allTokens df k))) := by
  have h := groupEvents_characterization df [] (by simp)
  simpa [groupEvents] using h

theorem aglutinar_rows_eq (df : List Row) :
    aglutinar_eventos_por_dia df = sortRows ((specKeys df).map (specRow df)) := by
  unfold aglutinar_eventos_por_dia
  by_cases hdf : df.isEmpty = true
  · rw [if_pos hdf]
    have hnil : df = [] := List.isEmpty_iff.mp hdf
    subst hnil
    rw [specKeys_nil]
    simp [sortRows, List.insertionSort]
  · rw [if_neg hdf, groupEvents_eq, List.map_map]
    congr 1

/-! ## Helper lemmas: strip and paren-scan over a code prefix -/

theorem stripLeft_app (a b : Str) :
    stripLeft (a ++ b) = if stripLeft a = [] then stripLeft b else stripLeft a ++ b := by
  induction a with
  | nil => simp [stripLeft]
  | cons c a' ih =>
    by_cases hc : c.isWhitespace = true
    · rw [List.cons_append, stripLeft, if_pos hc, ih]
      rw [stripLeft, if_pos hc]
    · simp [List.cons_append, stripLeft, hc]

theorem stripLeft_of_nonws (a : Str) (h : ∀ c ∈ a, c.isWhitespace = false) :
    stripLeft a = a := by
  cases a with
  | nil => rfl
  | cons c a' =>
    rw [stripLeft, if_neg (by simp [h c (by simp)])]

theorem stripRight_app_token (t x : Str) (h : goodTok t) :
    stripRight (t ++ ' ' :: x) =
      if stripRight x = [] then t else t ++ ' ' :: stripRight x := by
  obtain ⟨hne, hnws⟩ := h
  have hrev : (t ++ ' ' :: x).reverse = (x.reverse ++ [' ']) ++ t.reverse := by simp
  show (stripLeft (t ++ ' ' :: x).reverse).reverse = _
  rw [hrev, stripLeft_app, stripLeft_app x.reverse [' ']]
  have hsp : stripLeft [' '] = [] := by simp [stripLeft]
  rw [hsp]
  by_cases hx : stripLeft x.reverse = []
  · rw [if_pos hx, if_pos rfl]
    rw [stripLeft_of_nonws t.reverse (by intro c hc; exact hnws c (by simpa using hc))]
    have hxr : stripRight x = [] := by simp [stripRight, hx]
    rw [if_pos hxr]
    simp
  · rw [if_neg hx, if_neg (by simp)]
    have hxr : ¬ stripRight x = [] := by
      simpa [stripRight, List.reverse_eq_nil_iff] using hx
    rw [if_neg hxr]
    simp [stripRight]

theorem strip_app_token (t x : Str) (h : goodTok t) :
    strip (t ++ ' ' :: x) = if stripRight x = [] then t else t ++ ' ' :: stripRight x := by
  show stripLeft (stripRight (t ++ ' ' :: x)) = _
  rw [stripRight_app_token t x h]
  by_cases hx : stripRight x = []
  · rw [if_pos hx]
    exact stripLeft_of_nonws t h.2
  · rw [if_neg hx]
    obtain ⟨hne, hnws⟩ := h
    cases t with
    | nil => exact absurd rfl hne
    | cons c t' =>
      rw [List.cons_append, stripLeft, if_neg (by simp [hnws c (by simp)])]

theorem scanParens_app_no_paren :
    ∀ (a b : Str), '(' ∉ a →
      scanParens (a ++ b) = (a ++ (scanParens b).1, (scanParens b).2) := by
  intro a
  induction a with
  | nil => intro b _; simp
  | cons c a' ih =>
    intro b hnp
    have hc : ¬ c = '(' := fun hh => hnp (by simp [hh])
    have ih2 := ih b (fun hh => hnp (by simp [hh]))
    show spAux none ((c :: a') ++ b) = _
    rw [List.cons_append, spAux, if_neg hc]
    show (c :: (scanParens (a' ++ b)).1, (scanParens (a' ++ b)).2) = _
    rw [ih2]
    simp

/-! ## Helper lemmas: the country-code prefix survives aggregation -/

theorem codes_good : ∀ c ∈ countryCodes, goodTok c := by
  intro c hc
  rcases (by simpa [countryCodes] using hc : c = ("ES").data ∨ c = ("EU").data ∨ c = ("US").data)
    with rfl | rfl | rfl
  · exact ⟨by simp, by decide⟩
  · exact ⟨by simp, by decide⟩
  · exact ⟨by simp, by decide⟩

theorem strip_of_nonws (a : Str) (h : ∀ c ∈ a, c.isWhitespace = false) : strip a = a := by
  unfold strip
  have hrev : stripRight a = a := by
    unfold stripRight
    rw [stripLeft_of_nonws a.reverse (by intro c hc; exact h c (by simpa using hc))]
    simp
  rw [hrev, stripLeft_of_nonws a h]

theorem remove_stop_code (c z : Str) (hc : c ∈ countryCodes)
    (hz : z = [] ∨ ∃ w, z = ' ' :: w) :
    hasCodeHead (remove_stopwords_from_event (c ++ z)) := by
  have hgood := codes_good c hc
  have hkeep : (! decide (lowerStr c ∈ stopwords_es)) = true := by
    rcases (by simpa [countryCodes] using hc :
      c = ("ES").data ∨ c = ("EU").data ∨ c = ("US").data) with rfl | rfl | rfl <;> decide
  rcases hz with rfl | ⟨w, rfl⟩
  · rw [List.append_nil]
    unfold remove_stopwords_from_event
    rw [splitWS_token c hgood]
    simp only [List.filter_cons, List.filter_nil, hkeep, if_true]
    exact ⟨c, hc, Or.inl rfl⟩
  · unfold remove_stopwords_from_event
    rw [splitWS_token_append c w hgood]
    simp only [List.filter_cons, hkeep, if_true]
    cases hL : (splitWS w).filter (fun t => ! decide (lowerStr t ∈ stopwords_es)) with
    | nil => exact ⟨c, hc, Or.inl rfl⟩
    | cons a L' => exact ⟨c, hc, Or.inr ⟨joinSp (a :: L'), rfl⟩⟩

theorem base_code_shape (c x : Str) (hc : c ∈ countryCodes) :
    (extraer_base_y_parens (strip (c ++ ' ' :: x))).1 = c ∨
      ∃ b', (extraer_base_y_parens (strip (c ++ ' ' :: x))).1 = c ++ ' ' :: b' := by
  have hgood := codes_good c hc
  have hnp : '(' ∉ c := by
    rcases (by simpa [countryCodes] using hc :
      c = ("ES").data ∨ c = ("EU").data ∨ c = ("US").data) with rfl | rfl | rfl <;> decide
  rw [strip_app_token c x hgood]
  by_cases hx : stripRight x = []
  · rw [if_pos hx]
    left
    unfold extraer_base_y_parens
    have h1 : scanParens c = (c ++ (scanParens []).1, (scanParens []).2) := by
      have := scanParens_app_no_paren c [] hnp
      simpa using this
    have h2 : scanParens ([] : Str) = ([], []) := rfl
    rw [h1, h2]
    simp only [List.append_nil]
    exact strip_of_nonws c hgood.2
  · rw [if_neg hx]
    unfold extraer_base_y_parens
    have hnp2 : '(' ∉ c ++ [' '] := by
      intro hh
      rcases List.mem_append.mp hh with hh | hh
      · exact hnp hh
      · simp at hh
    have h1 : scanParens ((c ++ [' ']) ++ stripRight x) =
        ((c ++ [' ']) ++ (scanParens (stripRight x)).1, (scanParens (stripRight x)).2) :=
      scanParens_app_no_paren (c ++ [' ']) (stripRight x) hnp2
    have heq : (c ++ [' ']) ++ stripRight x = c ++ ' ' :: stripRight x := by simp
    rw [heq] at h1
    rw [h1]
    have heq2 : (c ++ [' ']) ++ (scanParens (stripRight x)).1 =
        c ++ ' ' :: (scanParens (stripRight x)).1 := by simp
    rw [heq2]
    rw [strip_app_token c _ hgood]
    by_cases hq : stripRight (scanParens (stripRight x)).1 = []
    · rw [if_pos hq]
      exact Or.inl rfl
    · rw [if_neg hq]
      exact Or.inr ⟨_, rfl⟩

theorem render_code_head (c base : Str) (ts : List Str) (hc : c ∈ countryCodes)
    (hb : base = c ∨ ∃ b', base = c ++ ' ' :: b') :
    hasCodeHead (remove_stopwords_from_event (renderEvent base ts)) := by
  unfold renderEvent
  by_cases hts : ts.isEmpty = true
  · rw [if_pos hts]
    rcases hb with hb | ⟨b', hb⟩
    · rw [hb]
      have := remove_stop_code c [] hc (Or.inl rfl)
      simpa using this
    · rw [hb]
      exact remove_stop_code c (' ' :: b') hc (Or.inr ⟨b', rfl⟩)
  · rw [if_neg hts]
    rcases hb with hb | ⟨b', hb⟩
    · rw [hb]
      exact remove_stop_code c (' ' :: '(' :: (joinSlash ts ++ [')'])) hc
        (Or.inr ⟨_, rfl⟩)
    · rw [hb]
      have heq : (c ++ ' ' :: b') ++ ' ' :: '(' :: (joinSlash ts ++ [')']) =
        c ++ ' ' :: (b' ++ ' ' :: '(' :: (joinSlash ts ++ [')'])) := by simp
      rw [heq]
      exact remove_stop_code c _ hc (Or.inr ⟨_, rfl⟩)

theorem aglutinar_code_head (df : List Row)
    (hall : ∀ r ∈ df, ∃ c ∈ countryCodes, ∃ e, r.2 = c ++ ' ' :: e) :
    ∀ row ∈ aglutinar_eventos_por_dia df, hasCodeHead row.2 := by
  intro row hrow
  rw [aglutinar_rows_eq] at hrow
  have hperm := List.perm_insertionSort rowLE ((specKeys df).map (specRow df))
  have hrow2 : row ∈ (specKeys df).map (specRow df) := hperm.mem_iff.mp hrow
  obtain ⟨k, hk, hkr⟩ := List.mem_map.mp hrow2
  have hk2 : k ∈ (validRows df).map keyOf := dedupKeep_sub _ k hk
  obtain ⟨r, hr, hrk⟩ := List.mem_map.mp hk2
  have hrdf : r ∈ df := List.mem_of_mem_filter hr
  obtain ⟨c, hc, e, hre⟩ := hall r hrdf
  have hbase : k.2 = (extraer_base_y_parens (strip (c ++ ' ' :: e))).1 := by
    rw [← hrk]
    unfold keyOf
    rw [hre]
  subst hkr
  unfold specRow
  simp only
  have hb := base_code_shape c e hc
  rw [← hbase] at hb
  exact render_code_head c k.2 _ hc hb
theorem mapCountry_mem_codes (x : Str) : mapCountry x ∈ countryCodes := by
  unfold mapCountry
  by_cases h1 : x = ("España").data
  · simp [h1, countryCodes]
  · by_cases h2 : x = ("Eurozona").data
    · simp [h1, h2, countryCodes]
    · simp [h1, h2, countryCodes]

theorem scrape_earnings_code_head (year : Nat) (pe : Str → List EarnTr) (r1 : HttpResp) :
    ∀ row ∈ (scrape_earnings year pe r1).rows,
      ∃ c ∈ countryCodes, ∃ rest, row.2 = c ++ ' ' :: rest := by
  intro row hrow
  unfold scrape_earnings at hrow
  by_cases h200 : r1.status ≠ 200
  · rw [if_pos h200] at hrow
    simp [emptyCal] at hrow
  · rw [if_neg h200] at hrow
    by_cases hdf : r1.dataField = none ∨ ((r1.dataField.getD []).isEmpty = true)
    · rw [if_pos hdf] at hrow
      simp [emptyCal] at hrow
    · rw [if_neg hdf] at hrow
      by_cases hres : (earnLoop year none (pe (r1.dataField.getD []))).isEmpty = true
      · rw [if_pos hres] at hrow
        simp [emptyCal] at hrow
      · rw [if_neg hres] at hrow
        have hrow2 := dedupKeep_sub _ row hrow
        obtain ⟨rec, _, hrr⟩ := List.mem_map.mp hrow2
        refine ⟨mapCountry rec.2.1, mapCountry_mem_codes rec.2.1,
          ("Resultado ").data ++ rec.2.2, ?_⟩
        rw [← hrr]
        simp

theorem scrape_economic_code_head (pc : Str → List EconTr) (r2 : HttpResp) :
    ∀ row ∈ (scrape_economic pc r2).rows, hasCodeHead row.2 := by
  intro row hrow
  unfold scrape_economic at hrow
  by_cases h200 : r2.status ≠ 200
  · rw [if_pos h200] at hrow
    simp [emptyCal] at hrow
  · rw [if_neg h200] at hrow
    by_cases hdf : r2.dataField = none ∨ ((r2.dataField.getD []).isEmpty = true)
    · rw [if_pos hdf] at hrow
      simp [emptyCal] at hrow
    · rw [if_neg hdf] at hrow
      by_cases hres : (econExtract (pc (r2.dataField.getD []))).isEmpty = true
      · rw [if_pos hres] at hrow
        simp [emptyCal] at hrow
      · rw [if_neg hres] at hrow
        refine aglutinar_code_head _ ?_ row hrow
        intro r hr
        have hr2 := dedupKeep_sub _ r hr
        obtain ⟨rec, _, hrr⟩ := List.mem_map.mp hr2
        exact ⟨mapCountry rec.2.1, mapCountry_mem_codes rec.2.1, rec.2.2, by rw [← hrr]⟩

theorem tryTargets_all_fail (fp : Str → Option EmbDict) :
    ∀ ts : List (Str × Str), (∀ t ∈ ts, targetSuccess (fp t.2) = false) →
      (tryTargets fp ts).1 = none := by
  intro ts
  induction ts with
  | nil => intro _; rfl
  | cons t rest ih =>
    intro h
    have ht := h t (by simp)
    unfold tryTargets
    cases hfp : fp t.2 with
    | none =>
      simp only
      exact ih (fun x hx => h x (by simp [hx]))
    | some d =>
      have hnm : ¬ ("AGUA_TOTAL").data ∈ d := by
        simpa [targetSuccess, hfp] using ht
      simp only [if_neg hnm]
      exact ih (fun x hx => h x (by simp [hx]))

theorem setAdd_nodup (v : List Str) (t : Str) (h : v.Nodup) : (setAdd v t).Nodup := by
  unfold setAdd
  by_cases ht : t ∈ v
  · rw [if_pos ht]
    exact h
  · rw [if_neg ht]
    simp [List.nodup_append, h, ht]

theorem setAddList_nodup (l : List Str) : ∀ v : List Str, v.Nodup → (setAddList v l).Nodup := by
  induction l with
  | nil => intro v hv; exact hv
  | cons t l' ih =>
    intro v hv
    unfold setAddList
    rw [List.foldl_cons]
    exact ih (setAdd v t) (setAdd_nodup v t hv)

theorem sortStr_nodup (l : List Str) (h : l.Nodup) : (sortStr l).Nodup :=
  (List.perm_insertionSort (fun a b => strLeb a b = true) l).nodup_iff.mpr h

theorem sortRows_nodup (l : List Row) (h : l.Nodup) : (sortRows l).Nodup :=
  (List.perm_insertionSort rowLE l).nodup_iff.mpr h

theorem sortRows_sorted (l : List Row) : List.Sorted rowLE (sortRows l) :=
  List.sorted_insertionSort rowLE l

theorem aglutinar_sorted (df : List Row) :
    List.Sorted rowLE (aglutinar_eventos_por_dia df) := by
  unfold aglutinar_eventos_por_dia
  by_cases hdf : df.isEmpty = true
  · rw [if_pos hdf]
    exact List.sorted_nil
  · rw [if_neg hdf]
    exact sortRows_sorted _

/-! ## The claims -/

/-- C1: for every input frame, `aglutinar_eventos_por_dia` produces exactly
one output row per distinct `(day, parenthesis-free base)` pair among the
rows whose day and event are non-empty after stripping: up to the final
two-column sort, the output is the map over the distinct keys (in order of
first appearance) sending each key to the row whose event text is the base
followed — when the group collected any parenthetical token (each
parenthetical content split on `/`, `,`, `;`) — by `" ("`, the `/`-joined
sorted token collection with the replacement table applied, and `")"`,
with every stopword token removed from the final string.  (`specKeys`,
`allTokens` and `specRow` are the spec-side reading of that sentence;
the sorted collection is sorted before the replacement table is applied,
which is what `sorted`-then-`get` does in the source.) -/
theorem C1_aglutinar_one_row_per_group (df : List Row) :
    aglutinar_eventos_por_dia df = sortRows ((specKeys df).map (specRow df)) :=
  aglutinar_rows_eq df

/-- C2 (counterexample): the claim says the qualifier list between the
final parentheses is duplicate-free after the replacement table has been
applied; with `X (Anual)` and `X (YoY)` on the same day the code
deduplicates before replacing, and the output row is `X (YoY/YoY)` whose
qualifier list `[YoY, YoY]` has a duplicate. -/
theorem C2_counterexample :
    aglutinar_eventos_por_dia dfC2 = [((("2026-01-05").data), (("X (YoY/YoY)").data))] ∧
    finalParenQualifiers (("X (YoY/YoY)").data) = [("YoY").data, ("YoY").data] ∧
    ¬ (∀ row ∈ aglutinar_eventos_por_dia dfC2, (finalParenQualifiers row.2).Nodup) :=
  ⟨by decide, by decide, by decide⟩

/-- C2 (amended): deduplication holds for the qualifiers as collected,
before the replacement table is applied — every group's token list in the
`agrupado` dictionary, and its sorted form, is duplicate-free. -/
theorem C2_pre_replacement_nodup (df : List Row) (k : GKey) (ts : List Str)
    (h : (k, ts) ∈ groupEvents df) : ts.Nodup ∧ (sortStr ts).Nodup := by
  rw [groupEvents_eq df] at h
  obtain ⟨k', _, hek⟩ := List.mem_map.mp h
  injection hek with h1 h2
  subst h2
  exact ⟨setAddList_nodup _ [] List.nodup_nil,
    sortStr_nodup _ (setAddList_nodup _ [] List.nodup_nil)⟩

/-- C2 (witness): the amended theorem applied to the concrete group of
`dfC2`. -/
theorem C2_pre_replacement_nodup_witness :
    ([("Anual").data, ("YoY").data] : List Str).Nodup ∧
    (sortStr [("Anual").data, ("YoY").data]).Nodup :=
  C2_pre_replacement_nodup dfC2 ((("2026-01-05").data), (("X").data))
    [("Anual").data, ("YoY").data] (by decide)

/-- C3 (counterexample): the claim orders the targets direct URL, then
proxy, then reader; the source tries the allorigins proxy first.  With a
fetch in which both the direct URL and the proxy succeed, the code returns
the proxy's dictionary while the claimed order would return the direct
one. -/
theorem C3_counterexample :
    dict_agua_embalses c3Fetch true =
      Except.ok (some [("AGUA_TOTAL").data, ("FROM_PROXY").data]) ∧
    (tryTargets c3Fetch claimedTargets).1 =
      some [("AGUA_TOTAL").data, ("FROM_DIRECT").data] ∧
    ([("AGUA_TOTAL").data, ("FROM_PROXY").data] : EmbDict) ≠
      [("AGUA_TOTAL").data, ("FROM_DIRECT").data] :=
  ⟨rfl, rfl, by decide⟩

/-- C3 (amended): `dict_agua_embalses` tries its targets sequentially in
the order allorigins proxy, then direct URL, then jina reader, and returns
the dictionary parsed from the first target whose HTML yields a parseable
structure (a dict containing `AGUA_TOTAL`), without attempting any later
target after that first success. -/
theorem C3_fallback_order (fp : Str → Option EmbDict) :
    (∀ d, fp urlAllorigins = some d → ("AGUA_TOTAL").data ∈ d →
      dict_agua_embalses fp true = Except.ok (some d) ∧
      dict_agua_embalses fp false = Except.ok (some d) ∧
      attemptedTargets fp = [("allorigins").data]) ∧
    (targetSuccess (fp urlAllorigins) = false →
      ∀ d, fp urlDirect = some d → ("AGUA_TOTAL").data ∈ d →
      dict_agua_embalses fp true = Except.ok (some d) ∧
      dict_agua_embalses fp false = Except.ok (some d) ∧
      attemptedTargets fp = [("allorigins").data, ("direct").data]) ∧
    (targetSuccess (fp urlAllorigins) = false → targetSuccess (fp urlDirect) = false →
      ∀ d, fp urlJina = some d → ("AGUA_TOTAL").data ∈ d →
      dict_agua_embalses fp true = Except.ok (some d) ∧
      dict_agua_embalses fp false = Except.ok (some d) ∧
      attemptedTargets fp = [("allorigins").data, ("direct").data, ("jina").data]) := by
  refine ⟨?_, ?_, ?_⟩
  · intro d h hm
    simp [dict_agua_embalses, attemptedTargets, targets, tryTargets, h, hm]
  · intro hs d h hm
    cases hfp : fp urlAllorigins with
    | none =>
      simp [dict_agua_embalses, attemptedTargets, targets, tryTargets, hfp, h, hm]
    | some d0 =>
      have hnm : ¬ ("AGUA_TOTAL").data ∈ d0 := by
        simpa [targetSuccess, hfp] using hs
      simp [dict_agua_embalses, attemptedTargets, targets, tryTargets, hfp, h, hm, hnm]
  · intro hs1 hs2 d h hm
    cases hfp1 : fp urlAllorigins with
    | none =>
      cases hfp2 : fp urlDirect with
      | none =>
        simp [dict_agua_embalses, attemptedTargets, targets, tryTargets, hfp1, hfp2, h, hm]
      | some d2 =>
        have hnm2 : ¬ ("AGUA_TOTAL").data ∈ d2 := by
          simpa [targetSuccess, hfp2] using hs2
        simp [dict_agua_embalses, attemptedTargets, targets, tryTargets, hfp1, hfp2, h, hm, hnm2]
    | some d1 =>
      have hnm1 : ¬ ("AGUA_TOTAL").data ∈ d1 := by
        simpa [targetSuccess, hfp1] using hs1
      cases hfp2 : fp urlDirect with
      | none =>
        simp [dict_agua_embalses, attemptedTargets, targets, tryTargets, hfp1, hfp2, h, hm, hnm1]
      | some d2 =>
        have hnm2 : ¬ ("AGUA_TOTAL").data ∈ d2 := by
          simpa [targetSuccess, hfp2] using hs2
        simp [dict_agua_embalses, attemptedTargets, targets, tryTargets,
          hfp1, hfp2, h, hm, hnm1, hnm2]

/-- C3 (witness): the amended theorem applied to the concrete fetch of the
counterexample, in which the proxy succeeds at once. -/
theorem C3_fallback_order_witness :
    dict_agua_embalses c3Fetch true =
      Except.ok (some [("AGUA_TOTAL").data, ("FROM_PROXY").data]) ∧
    attemptedTargets c3Fetch = [("allorigins").data] := by
  have h := (C3_fallback_order c3Fetch).1
    [("AGUA_TOTAL").data, ("FROM_PROXY").data] rfl (by decide)
  exact ⟨h.1, h.2.2⟩

/-- C4 (helper): the source and spec readings of the numeric normalisation
agree case by case. -/
theorem C4_resultado1_eq_spec (key txt : Str) : resultado1 key txt = specResultado1 key txt := by
  unfold resultado1 specResultado1 normalizeNumericText
  have hc : (decide (1 ≤ txt.count '.') && txt.contains ',') = true ↔ ('.' ∈ txt ∧ ',' ∈ txt) := by
    simp [Nat.one_le_iff_ne_zero, Nat.pos_iff_ne_zero, ← List.count_pos_iff]
  by_cases hmem : '.' ∈ txt ∧ ',' ∈ txt
  · rw [if_pos (hc.mpr hmem), if_pos hmem]
    cases hp : parseFloatQ ((txt.filter (fun c => ! c = '.')).map (fun c => if c = ',' then '.' else c)) with
    | none => rfl
    | some v =>
      simp only [Option.map_some]
      by_cases hkey : key = ("VARIACION").data
      · simp [hkey]
      · simp [hkey, mul_comm]
  · rw [if_neg (fun h => hmem (hc.mp h)), if_neg hmem]
    cases hp : parseFloatQ (txt.map (fun c => if c = ',' then '.' else c)) with
    | none => rfl
    | some v =>
      simp only [Option.map_some]
      by_cases hkey : key = ("VARIACION").data
      · simp [hkey]
      · simp [hkey, mul_comm]

/-- C5 (helper): the two readings of the `if day and month` guard agree. -/
theorem dateFromParts_eq_spec (year : Nat) (s : Str) (od om : Option Nat) :
    dateFromParts year s od om = specDateFromParts year s od om := by
  cases od with
  | none => cases om <;> rfl
  | some d =>
    cases om with
    | none => rfl
    | some m =>
      simp only [dateFromParts, specDateFromParts]
      by_cases hd : d = 0
      · simp [hd]
      · have hd' : 0 < d := Nat.pos_of_ne_zero hd
        by_cases hv : validDate year m d = true
        · simp [hd, hd', hv]
        · simp [hd, hd', hv]

/-- C5: `parse_spanish_date` returns the ISO date built from the first
all-digit token (day), the first `MONTHS_ES` token (month) and the current
year whenever both exist, the day is non-zero and they form a valid
calendar date, and returns the input unchanged in every other case:
the source definition equals the spec-side one on every input. -/
theorem C5_parse_spanish_date_eq_spec (year : Nat) (s : Str) :
    parse_spanish_date year s = specParseSpanishDate year s := by
  unfold parse_spanish_date specParseSpanishDate
  have hmap : ((lowerStr s).map (fun c => if c = ',' then ' ' else c)).map
      (fun c => if c = '.' then ' ' else c) =
      (lowerStr s).map (fun c => if c = ',' ∨ c = '.' then ' ' else c) := by
    rw [List.map_map]
    apply List.map_congr_left
    intro c _
    by_cases h1 : c = ','
    · simp [h1, Function.comp]
    · by_cases h2 : c = '.'
      · simp [h1, h2, Function.comp]
      · simp [h1, h2, Function.comp]
  rw [hmap]
  exact dateFromParts_eq_spec year s _ _

/-- C6: on failure the scripts return `None` or empty rather than
propagate: when every fetch target fails to yield parseable structure,
`dict_agua_embalses` returns `None` when `fail_silently` and raises
`RuntimeError` otherwise; and each scraper returns the empty two-column
frame whenever the status is not 200, the `data` field is missing or
falsy, or no event rows are extracted. -/
theorem C6_failure_returns_empty
    (fp : Str → Option EmbDict) (year : Nat)
    (pe : Str → List EarnTr) (pc : Str → List EconTr) (r1 r2 : HttpResp)
    (hfail : ∀ t ∈ targets, targetSuccess (fp t.2) = false)
    (h1 : r1.status ≠ 200 ∨ (r1.dataField = none ∨ (r1.dataField.getD []).isEmpty = true) ∨
      earnLoop year none (pe (r1.dataField.getD [])) = [])
    (h2 : r2.status ≠ 200 ∨ (r2.dataField = none ∨ (r2.dataField.getD []).isEmpty = true) ∨
      econExtract (pc (r2.dataField.getD [])) = []) :
    dict_agua_embalses fp true = Except.ok none ∧
    dict_agua_embalses fp false = Except.error () ∧
    scrape_earnings year pe r1 = emptyCal ∧
    scrape_economic pc r2 = emptyCal ∧
    emptyCal.cols = [("Día").data, ("Evento2").data] ∧ emptyCal.rows = [] := by
  have hnone := tryTargets_all_fail fp targets hfail
  refine ⟨?_, ?_, ?_, ?_, rfl, rfl⟩
  · unfold dict_agua_embalses
    rw [hnone]
    rfl
  · unfold dict_agua_embalses
    rw [hnone]
    rfl
  · unfold scrape_earnings
    by_cases h200 : r1.status ≠ 200
    · rw [if_pos h200]
    · rw [if_neg h200]
      rcases h1 with h | h | h
      · exact absurd h h200
      · rw [if_pos h]
      · by_cases hdf : r1.dataField = none ∨ (r1.dataField.getD []).isEmpty = true
        · rw [if_pos hdf]
        · rw [if_neg hdf, if_pos (by simp [h])]
  · unfold scrape_economic
    by_cases h200 : r2.status ≠ 200
    · rw [if_pos h200]
    · rw [if_neg h200]
      rcases h2 with h | h | h
      · exact absurd h h200
      · rw [if_pos h]
      · by_cases hdf : r2.dataField = none ∨ (r2.dataField.getD []).isEmpty = true
        · rw [if_pos hdf]
        · rw [if_neg hdf, if_pos (by simp [h])]

/-- C6 (witness): the theorem applied to a fetch in which every target
fails and to failing responses. -/
theorem C6_failure_returns_empty_witness :
    dict_agua_embalses fetchAllFail true = Except.ok none ∧
    dict_agua_embalses fetchAllFail false = Except.error () ∧
    scrape_earnings 2026 parseEarnNone respFail = emptyCal ∧
    scrape_economic parseEconNone respFail = emptyCal ∧
    emptyCal.cols = [("Día").data, ("Evento2").data] ∧ emptyCal.rows = [] :=
  C6_failure_returns_empty fetchAllFail 2026 parseEarnNone parseEconNone respFail respFail
    (by decide) (Or.inl (by decide)) (Or.inl (by decide))

/-- C7 (counterexample): the claim extends the duplicate-dropping to the
output of `aglutinar_eventos_por_dia`, but that function never drops
duplicate rows: two distinct bases (`de x` and `x`) collapse to the same
text after stopword removal and the output holds the row twice. -/
theorem C7_counterexample :
    aglutinar_eventos_por_dia dfC7 =
      [((("2026-02-02").data), (("x").data)), ((("2026-02-02").data), (("x").data))] ∧
    ¬ (aglutinar_eventos_por_dia dfC7).Nodup :=
  ⟨by decide, by decide⟩

/-- C7 (amended): the combined table of `main` is sorted in ascending
lexicographic order by `Día` then `Evento2` after duplicates have been
dropped, and the output of `aglutinar_eventos_por_dia` is sorted in the
same order (but may contain duplicate rows). -/
theorem C7_sorted (econ earn df : List Row) :
    List.Sorted rowLE (combinedCalendar econ earn) ∧
    (combinedCalendar econ earn).Nodup ∧
    List.Sorted rowLE (aglutinar_eventos_por_dia df) :=
  ⟨sortRows_sorted _, sortRows_nodup _ (dedupKeep_nodup _), aglutinar_sorted df⟩

/-- C8 (counterexample): the claim says every produced `Evento2` begins
with a country code followed by a space; an economic event whose text is a
single stopword (`de`) leaves the bare code `ES` with nothing after it. -/
theorem C8_counterexample :
    (scrape_economic parseEconStopword respOk).rows =
      [((("2026-02-02").data), (("ES").data))] ∧
    ¬ (∃ c ∈ countryCodes, ∃ rest, (("ES").data : Str) = c ++ ' ' :: rest) := by
  refine ⟨by decide, ?_⟩
  rintro ⟨c, hc, rest, h⟩
  have hlen := congrArg List.length h
  rcases (by simpa [countryCodes] using hc :
    c = ("ES").data ∨ c = ("EU").data ∨ c = ("US").data) with rfl | rfl | rfl <;>
    · simp [List.length_append] at hlen

/-- C8 (amended): every row produced by the scrapers begins with one of
the country codes `ES`, `EU`, `US` (`España` mapping to `ES`, `Eurozona`
to `EU`, everything else — including a missing flag or empty title — to
`US`); in `scrape_earnings` the code is always followed by a space, while
in `scrape_economic` it is followed by a space unless stopword removal in
`aglutinar_eventos_por_dia` left nothing after the code. -/
theorem C8_code_head (year : Nat) (pe : Str → List EarnTr) (pc : Str → List EconTr)
    (r1 r2 : HttpResp) :
    (∀ row ∈ (scrape_earnings year pe r1).rows,
      ∃ c ∈ countryCodes, ∃ rest, row.2 = c ++ ' ' :: rest) ∧
    (∀ row ∈ (scrape_economic pc r2).rows, hasCodeHead row.2) ∧
    mapCountry (("España").data) = ("ES").data ∧
    mapCountry (("Eurozona").data) = ("EU").data ∧
    (∀ x, x ≠ ("España").data → x ≠ ("Eurozona").data → mapCountry x = ("US").data) := by
  refine ⟨scrape_earnings_code_head year pe r1, scrape_economic_code_head pc r2,
    by decide, by decide, ?_⟩
  intro x h1 h2
  simp [mapCountry, h1, h2]

/-- C8 (witness): the amended theorem applied to the two concrete
responses: an earnings row with its space-separated code, and an economic
row that kept only the bare code. -/
theorem C8_code_head_witness :
    (∃ c ∈ countryCodes, ∃ rest, ((("ES Resultado ACS").data) : Str) = c ++ ' ' :: rest) ∧
    hasCodeHead (("ES").data) :=
  ⟨(C8_code_head 2026 parseEarnOne parseEconStopword respOk respOk).1
      ((("2026-02-13").data), (("ES Resultado ACS").data)) (by decide),
   (C8_code_head 2026 parseEarnOne parseEconStopword respOk respOk).2.1
      ((("2026-02-02").data), (("ES").data)) (by decide)⟩

/-- C9: `remove_stopwords_from_event` is idempotent, and its output splits
into exactly the whitespace tokens of the input whose lowercase form is
not a stopword, in their original order and case (they are rejoined with
single spaces by definition). -/
theorem C9_remove_stopwords_idempotent (text : Str) :
    remove_stopwords_from_event (remove_stopwords_from_event text) =
      remove_stopwords_from_event text ∧
    splitWS (remove_stopwords_from_event text) =
      (splitWS text).filter (fun t => ! decide (lowerStr t ∈ stopwords_es)) := by
  have hgood : ∀ t ∈ (splitWS text).filter (fun t => ! decide (lowerStr t ∈ stopwords_es)),
      goodTok t := by
    intro t ht
    exact splitWS_tokens_good text t (List.mem_of_mem_filter ht)
  have hsplit : splitWS (remove_stopwords_from_event text) =
      (splitWS text).filter (fun t => ! decide (lowerStr t ∈ stopwords_es)) := by
    unfold remove_stopwords_from_event
    exact splitWS_joinSp _ hgood
  refine ⟨?_, hsplit⟩
  conv_lhs => rw [remove_stopwords_from_event, hsplit]
  rw [List.filter_filter]
  simp [remove_stopwords_from_event]

/-- C10: `monday_to_friday` with `current` returns the pair of the Monday
of the base date's week (weekday 0, within six days below the base) and
the Friday four days later; with `next` the same pair shifted by exactly
seven days; and with any other mode it raises `ValueError`.  Dates are
proleptic-Gregorian ordinals, on which `weekdayOrd` is `date.weekday`. -/
theorem C10_monday_to_friday (base : ℤ) :
    (∃ s, monday_to_friday base (("current").data) = Except.ok (s, s + 4) ∧
      weekdayOrd s = 0 ∧ s ≤ base ∧ base ≤ s + 6) ∧
    (∀ s e, monday_to_friday base (("current").data) = Except.ok (s, e) →
      monday_to_friday base (("next").data) = Except.ok (s + 7, e + 7)) ∧
    (∀ w, w ≠ ("current").data → w ≠ ("next").data →
      monday_to_friday base w = Except.error ()) := by
  have hmod0 : 0 ≤ (base - 1) % 7 := Int.emod_nonneg _ (by norm_num)
  have hmod7 : (base - 1) % 7 < 7 := Int.emod_lt_of_pos _ (by norm_num)
  refine ⟨⟨base - weekdayOrd base, ?_, ?_, ?_, ?_⟩, ?_, ?_⟩
  · simp [monday_to_friday]
  · unfold weekdayOrd
    omega
  · unfold weekdayOrd
    omega
  · unfold weekdayOrd
    omega
  · intro s e h
    simp [monday_to_friday] at h
    simp [monday_to_friday, ← h.1, ← h.2]
    omega
  · intro w h1 h2
    simp [monday_to_friday, h1, h2]

/-- C10 (witness): the theorem applied at the ordinal 10 (a Wednesday) and
at the unrecognized mode `x`. -/
theorem C10_monday_to_friday_witness :
    monday_to_friday 10 (("next").data) = Except.ok (15, 19) ∧
    monday_to_friday 10 (("x").data) = Except.error () :=
  ⟨by simpa using (C10_monday_to_friday (10 : ℤ)).2.1 8 12 rfl,
   (C10_monday_to_friday (10 : ℤ)).2.2 (("x").data) (by decide) (by decide)⟩
